import Mathlib

/-!
Verification of the core transforms of the mcp-sumologic repository.

The development shallowly embeds the two pure components of the repository:

* the time-range resolver of src/src/index.ts (the part imported from
  the utils/time module: UNIT_MAP, RELATIVE_REGEX, parseTimeToken,
  parseTimeRange), and
* the PII masker of src/src/utils/pii.ts (isMaskingEnabled,
  maskSensitiveInfo with its helpers isLikelyPhoneNumber and isPartOfUrl
  and its pattern tables).

Modelling conventions:

* Strings are modelled as List Char; the process environment variable
  MASK_SENSITIVE_INFO is passed explicitly as an Option (List Char).
* Timestamps are modelled as Int seconds since the Unix epoch.  The
  runtime is modelled with a fixed UTC offset (TZ=UTC): moment.js then
  formats every instant with the fixed offset +00:00, and comparison of
  two such equal-shape ISO strings coincides with the numeric order of
  the instants, so the string comparison of the source is modelled as
  the Int order.  moment(now).subtract(amount, unit) is exact arithmetic
  on seconds for the fixed units s/m/h/d/w under a fixed offset.
* momentParse models the ISO 8601 core of the moment(String) parser:
  YYYY-MM-DD, optionally followed by THH:MM, THH:MM:SS, and an offset
  Z, +-HH, +-HHMM or +-HH:MM, with calendar validity checks.  moment
  accepts further formats (fractions, 6-digit years, space separator);
  they are outside this model and no theorem below depends on them.
  A parsed instant is converted to the local (fixed UTC) zone exactly
  as moment does for default parsing.
* JavaScript regular expressions are modelled by a small regex AST and
  a fuel-bounded backtracking matcher implementing the ECMAScript
  semantics used by the source patterns: ordered alternation, greedy
  and lazy quantifiers, character classes, word-boundary assertions,
  leftmost-first global replacement, and advancing by one character
  after an empty match.  The fuel bounds below are generous enough for
  every recursion (each matcher step either consumes a character or
  descends into a structurally smaller expression).
-/

/-! ## Basic string utilities -/

/-- JavaScript falsiness of an optional string: undefined and the empty
string are falsy. -/
def jsFalsy : Option (List Char) → Bool
  | none => true
  | some s => s.isEmpty

/-- str.toLowerCase() on the ASCII strings used by the source. -/
def toLowerStr (s : List Char) : List Char := s.map Char.toLower

/-- Number of digit characters of a string (the length of
str.replace(/\D/g, ''), used by isLikelyPhoneNumber). -/
def digitCount (s : List Char) : Nat := (s.filter Char.isDigit).length

/-- parseInt on a string of decimal digits. -/
def digitsToNat (ds : List Char) : Nat :=
  ds.foldl (fun a c => a * 10 + (c.toNat - 48)) 0

/-- Whether the first list is a leading segment of the second
(used to model String.prototype.indexOf). -/
def leadsList : List Char → List Char → Bool
  | [], _ => true
  | _ :: _, [] => false
  | a :: as, b :: bs => a = b && leadsList as bs

/-- Index search helper for idxOf. -/
def idxOfAux (needle : List Char) : Nat → List Char → Option Nat
  | i, [] => if leadsList needle [] then some i else none
  | i, c :: t => if leadsList needle (c :: t) then some i else idxOfAux needle (i + 1) t

/-- fullText.indexOf(match): the index of the first occurrence of
needle in hay, none when absent (JavaScript returns -1). -/
def idxOf (hay needle : List Char) : Option Nat := idxOfAux needle 0 hay

/-! ## Calendar model (proleptic Gregorian, seconds since the epoch) -/

/-- Day number of a civil date (days since 1970-01-01), the standard
era-based civil-from-days algorithm. -/
def daysFromCivil (y m d : Int) : Int :=
  let yAdj : Int := if m ≤ 2 then y - 1 else y
  let era : Int := Int.fdiv yAdj 400
  let yoe : Int := yAdj - era * 400
  let mp : Int := if m ≤ 2 then m + 9 else m - 3
  let doy : Int := Int.fdiv (153 * mp + 2) 5 + d - 1
  let doe : Int := yoe * 365 + Int.fdiv yoe 4 - Int.fdiv yoe 100 + doy
  era * 146097 + doe - 719468

/-- Civil date (year, month, day) of a day number. -/
def civilFromDays (z : Int) : Int × Int × Int :=
  let z' : Int := z + 719468
  let era : Int := Int.fdiv z' 146097
  let doe : Int := z' - era * 146097
  let yoe : Int :=
    Int.fdiv (doe - Int.fdiv doe 1460 + Int.fdiv doe 36524 - Int.fdiv doe 146096) 365
  let doy : Int := doe - (365 * yoe + Int.fdiv yoe 4 - Int.fdiv yoe 100)
  let mp : Int := Int.fdiv (5 * doy + 2) 153
  let d : Int := doy - Int.fdiv (153 * mp + 2) 5 + 1
  let m : Int := if mp < 10 then mp + 3 else mp - 9
  (yoe + era * 400 + (if m ≤ 2 then 1 else 0), m, d)

def isLeapYear (y : Int) : Bool :=
  (Int.emod y 4 = 0 && !(Int.emod y 100 = 0)) || Int.emod y 400 = 0

def daysInMonth (y m : Int) : Int :=
  if m = 2 then (if isLeapYear y then 29 else 28)
  else if m = 4 || m = 6 || m = 9 || m = 11 then 30
  else 31

/-- Fixed-width decimal rendering, zero padded to the left. -/
def padNat (w n : Nat) : List Char :=
  let ds := Nat.toDigits 10 n
  List.replicate (w - ds.length) '0' ++ ds

/-- moment .format() under a fixed UTC offset: the default format
YYYY-MM-DDTHH:mm:ssZ of the instant, rendered with offset +00:00. -/
def momentFormat (t : Int) : List Char :=
  let z : Int := Int.fdiv t 86400
  let sod : Nat := (t - z * 86400).toNat
  let ymd := civilFromDays z
  padNat 4 ymd.1.toNat ++ "-".data ++ padNat 2 ymd.2.1.toNat ++ "-".data ++
    padNat 2 ymd.2.2.toNat ++ "T".data ++ padNat 2 (sod / 3600) ++ ":".data ++
    padNat 2 (sod % 3600 / 60) ++ ":".data ++ padNat 2 (sod % 60) ++ "+00:00".data

/-- Read exactly n decimal digits from the front of a string. -/
def readFixed (n : Nat) (s : List Char) : Option (Nat × List Char) :=
  let ds := s.take n
  if ds.length = n && ds.all Char.isDigit then some (digitsToNat ds, s.drop n) else none

/-- Parse the trailing timezone designator of an ISO string: empty
(local time, the fixed UTC zone of this model), Z, or a +-HH, +-HHMM,
+-HH:MM offset.  Returns the offset in seconds. -/
def parseOffset : List Char → Option Int
  | [] => some 0
  | ['Z'] => some 0
  | c :: rest =>
    if c = '+' || c = '-' then
      match readFixed 2 rest with
      | none => none
      | some (hh, r1) =>
        let sign : Int := if c = '+' then 1 else -1
        let mins : Option Nat :=
          match r1 with
          | [] => some 0
          | ':' :: r2 =>
            match readFixed 2 r2 with
            | some (mm, []) => if mm ≤ 59 then some mm else none
            | _ => none
          | _ =>
            match readFixed 2 r1 with
            | some (mm, []) => if mm ≤ 59 then some mm else none
            | _ => none
        match mins with
        | some mm => if hh ≤ 23 then some (sign * (hh * 3600 + mm * 60)) else none
        | none => none
    else none

/-- Parse the time-of-day part HH:MM or HH:MM:SS, returning the second
of day and the unconsumed remainder (the timezone designator). -/
def parseTimeOfDay (s : List Char) : Option (Nat × List Char) :=
  match readFixed 2 s with
  | none => none
  | some (hh, r1) =>
    match r1 with
    | ':' :: r2 =>
      match readFixed 2 r2 with
      | none => none
      | some (mm, r3) =>
        if hh ≤ 23 && mm ≤ 59 then
          match r3 with
          | ':' :: r4 =>
            match readFixed 2 r4 with
            | none => none
            | some (ss, r5) => if ss ≤ 59 then some (hh * 3600 + mm * 60 + ss, r5) else none
          | _ => some (hh * 3600 + mm * 60, r3)
        else none
    | _ => none

/-- The ISO 8601 core of moment(String): calendar date, optional time
of day, optional timezone designator, with calendar validity checks.
Returns the denoted instant; an input with a non-UTC offset denotes the
same instant as its UTC rendering (moment converts default-parsed input
to the local zone, which this model fixes to UTC). -/
def momentParse (s : List Char) : Option Int :=
  match readFixed 4 s with
  | none => none
  | some (y, r1) =>
    match r1 with
    | '-' :: r2 =>
      match readFixed 2 r2 with
      | none => none
      | some (mo, r3) =>
        match r3 with
        | '-' :: r4 =>
          match readFixed 2 r4 with
          | none => none
          | some (d, r5) =>
            if 1 ≤ mo && mo ≤ 12 && 1 ≤ d && (d : Int) ≤ daysInMonth y mo then
              let base : Int := daysFromCivil y mo d * 86400
              match r5 with
              | [] => some base
              | 'T' :: r6 =>
                match parseTimeOfDay r6 with
                | none => none
                | some (sod, r7) =>
                  match parseOffset r7 with
                  | none => none
                  | some off => some (base + sod - off)
              | _ => none
            else none
        | _ => none
    | _ => none

/-! ## Time-range resolver (parseTimeToken / parseTimeRange) -/

/-- UNIT_MAP of the source, as seconds per unit under the fixed-offset
model (s, m, h, d, w); any other key is absent. -/
def UNIT_MAP : Char → Option Nat
  | 's' => some 1
  | 'm' => some 60
  | 'h' => some 3600
  | 'd' => some 86400
  | 'w' => some 604800
  | _ => none

/-- token.match(RELATIVE_REGEX) for RELATIVE_REGEX =
^-([0-9]+)([smhdw])$ with the i flag: the anchored match succeeds
exactly when the token is a minus sign, one or more digits, and one
unit letter (either case); returns the two capture groups. -/
def relativeMatch : List Char → Option (Nat × Char)
  | '-' :: rest =>
    match rest.takeWhile Char.isDigit, rest.dropWhile Char.isDigit with
    | [], _ => none
    | d :: ds, [u] =>
      if "smhdwSMHDW".data.contains u then some (digitsToNat (d :: ds), u) else none
    | _, _ => none
  | _ => none

/-- parseTimeToken of src (utils/time): absent or empty token is
absent; the token now (case-insensitive) is now; a relative token -N<unit> is
now minus the offset; otherwise the moment calendar parse when valid;
otherwise absent.  Results are instants; the source returns
momentFormat of these instants. -/
def parseTimeToken (token : Option (List Char)) (now : Int) : Option Int :=
  match token with
  | none => none
  | some t =>
    if t.isEmpty then none
    else if toLowerStr t = "now".data then some now
    else
      match relativeMatch t with
      | some (amount, u) =>
        match UNIT_MAP u.toLower with
        | some k => some (now - (amount : Int) * k)
        | none => momentParse t
      | none => momentParse t

/-- parseTimeRange before the final swap: the two tokens resolved
independently, then the to-defaults-to-now rule (resolved from, to not
supplied) and the window rule (from not supplied, to supplied as a
relative token, from unresolved). -/
def parseTimeRangePre (f t : Option (List Char)) (now : Int) : Option Int × Option Int :=
  let resolvedFrom := parseTimeToken f now
  let resolvedTo := parseTimeToken t now
  let ft1 := if resolvedFrom.isSome && jsFalsy t then some now else resolvedTo
  if !jsFalsy f then (resolvedFrom, ft1)
  else
    match t with
    | none => (resolvedFrom, ft1)
    | some ts =>
      if ts.isEmpty then (resolvedFrom, ft1)
      else
        match relativeMatch ts with
        | none => (resolvedFrom, ft1)
        | some (amount, u) =>
          if resolvedFrom.isSome then (resolvedFrom, ft1)
          else
            match UNIT_MAP u.toLower with
            | some k => (some (now - (amount : Int) * k), some now)
            | none => (none, some now)

/-- parseTimeRange of src (utils/time): the pre-swap resolution
followed by the ordering swap; the string comparison finalFrom >
finalTo of the source is the Int comparison of the instants under the
fixed-offset model.  The UNIT_MAP lookup of the window branch cannot
miss (relativeMatch only produces mapped units, theorem
relativeMatch_unit); the Except model parseTimeRangeE below makes the
two partial operations of that branch explicit. -/
def parseTimeRange (f t : Option (List Char)) (now : Int) : Option Int × Option Int :=
  match parseTimeRangePre f t now with
  | (some a, some b) => if b < a then (some b, some a) else (some a, some b)
  | r => r

/-- parseTimeRange with the two genuinely partial operations of the
window branch modelled as exceptions: the non-null assertion
to.match(RELATIVE_REGEX)! (a TypeError at runtime if the match were
null) and the unguarded UNIT_MAP[...] lookup feeding subtract. -/
def parseTimeRangePreE (f t : Option (List Char)) (now : Int) :
    Except String (Option Int × Option Int) :=
  let resolvedFrom := parseTimeToken f now
  let resolvedTo := parseTimeToken t now
  let ft1 := if resolvedFrom.isSome && jsFalsy t then some now else resolvedTo
  if !jsFalsy f then Except.ok (resolvedFrom, ft1)
  else
    match t with
    | none => Except.ok (resolvedFrom, ft1)
    | some ts =>
      if ts.isEmpty then Except.ok (resolvedFrom, ft1)
      else
        if (relativeMatch ts).isSome then
          if resolvedFrom.isSome then Except.ok (resolvedFrom, ft1)
          else
            match relativeMatch ts with
            | none => Except.error "TypeError: non-null assertion failed"
            | some (amount, u) =>
              match UNIT_MAP u.toLower with
              | some k => Except.ok (some (now - (amount : Int) * k), some now)
              | none => Except.error "unit lookup failed"
        else Except.ok (resolvedFrom, ft1)

def parseTimeRangeE (f t : Option (List Char)) (now : Int) :
    Except String (Option Int × Option Int) :=
  match parseTimeRangePreE f t now with
  | Except.error e => Except.error e
  | Except.ok (some a, some b) =>
    Except.ok (if b < a then (some b, some a) else (some a, some b))
  | Except.ok r => Except.ok r

/-! ## Regex model (the ECMAScript constructs used by the source) -/

/-- Regex AST: empty, one-character class, sequencing, ordered
alternation, bounded repetition (lo to hi, greedy or lazy), unbounded
star (greedy or lazy), and the word-boundary assertion. -/
inductive RE where
  | eps : RE
  | cls : (Char → Bool) → RE
  | seq : RE → RE → RE
  | alt : RE → RE → RE
  | rep : RE → Nat → Nat → Bool → RE
  | star : RE → Bool → RE
  | wb : RE

/-- ECMAScript word character: [A-Za-z0-9_]. -/
def isWordChar (c : Char) : Bool := c.isAlphanum || c = '_'

def wordOpt : Option Char → Bool
  | none => false
  | some c => isWordChar c

/-- The word-boundary test at a position between the previous character
and the next one (string edges count as non-word). -/
def atBoundary (prev next : Option Char) : Bool := wordOpt prev != wordOpt next

/-- The backtracking matcher in continuation-passing style.  The
continuation receives the last consumed character (for later boundary
assertions) and the unconsumed suffix; alternatives are tried in
ECMAScript order (left alternative first, greedy quantifiers longest
first, lazy quantifiers shortest first), and a quantifier iteration
that consumes nothing fails, as in the ECMAScript RepeatMatcher.  Fuel
decreases on every recursive call; reFuel below always suffices. -/
def mrun : Nat → RE → Option Char → List Char →
    (Option Char → List Char → Option (List Char)) → Option (List Char)
  | 0, _, _, _, _ => none
  | _ + 1, .eps, prev, s, k => k prev s
  | _ + 1, .cls p, _, s, k =>
    match s with
    | [] => none
    | c :: rest => if p c then k (some c) rest else none
  | fuel + 1, .seq a b, prev, s, k =>
    mrun fuel a prev s (fun p r => mrun fuel b p r k)
  | fuel + 1, .alt a b, prev, s, k =>
    (mrun fuel a prev s k).orElse (fun _ => mrun fuel b prev s k)
  | fuel + 1, .rep a lo hi lz, prev, s, k =>
    if hi = 0 then k prev s
    else if lo > 0 then
      mrun fuel a prev s (fun p r => mrun fuel (.rep a (lo - 1) (hi - 1) lz) p r k)
    else if lz then
      (k prev s).orElse (fun _ =>
        mrun fuel a prev s (fun p r =>
          if r.length < s.length then mrun fuel (.rep a 0 (hi - 1) lz) p r k else none))
    else
      (mrun fuel a prev s (fun p r =>
        if r.length < s.length then mrun fuel (.rep a 0 (hi - 1) lz) p r k else none)).orElse
        (fun _ => k prev s)
  | fuel + 1, .star a lz, prev, s, k =>
    if lz then
      (k prev s).orElse (fun _ =>
        mrun fuel a prev s (fun p r =>
          if r.length < s.length then mrun fuel (.star a lz) p r k else none))
    else
      (mrun fuel a prev s (fun p r =>
        if r.length < s.length then mrun fuel (.star a lz) p r k else none)).orElse
        (fun _ => k prev s)
  | _ + 1, .wb, prev, s, k =>
    if atBoundary prev s.head? then k prev s else none

/-- A size bound used to pick sufficient matcher fuel. -/
def reSize : RE → Nat
  | .eps => 1
  | .cls _ => 1
  | .seq a b => reSize a + reSize b + 1
  | .alt a b => reSize a + reSize b + 1
  | .rep a _ hi _ => (hi + 1) * (reSize a + 2) + 1
  | .star a _ => reSize a + 2
  | .wb => 1

def reFuel (re : RE) (s : List Char) : Nat := (reSize re + 2) * (s.length + 2) + 8

/-- Attempt a match at the current position; on success returns the
unconsumed suffix after the (backtracking-first) match. -/
def matchAt (fuel : Nat) (re : RE) (prev : Option Char) (s : List Char) : Option (List Char) :=
  mrun fuel re prev s (fun _ r => some r)

/-- Leftmost match search: the first position (scanning left to right,
tracking the previous character for boundary assertions) at which the
regex matches; returns the text before the match, the matched text and
the text after it. -/
def findLeft (re : RE) : Option Char → List Char →
    Option (List Char × List Char × List Char)
  | prev, [] =>
    match matchAt (reFuel re []) re prev [] with
    | some rest => some ([], [], rest)
    | none => none
  | prev, c :: s' =>
    match matchAt (reFuel re (c :: s')) re prev (c :: s') with
    | some rest =>
      some ([], (c :: s').take ((c :: s').length - rest.length), rest)
    | none =>
      match findLeft re (some c) s' with
      | some (pre, m, rest) => some (c :: pre, m, rest)
      | none => none

/-- The last character of a list, or a default when empty. -/
def lastOr : List Char → Option Char → Option Char
  | [], d => d
  | c :: cs, _ => lastOr cs (some c)

/-- String.prototype.replace with a global regex and a callback:
matches are found left to right in the subject, each replaced by the
callback result (the callback of the source either keeps the match or
returns a fixed placeholder); after an empty match the scan advances by
one character, as in ECMAScript.  The fuel is the recursion bound; the
subject length plus one always suffices since every round consumes at
least one character of the subject. -/
def replaceCB : Nat → RE → (List Char → List Char) → Option Char → List Char → List Char
  | 0, _, _, _, s => s
  | fuel + 1, re, cb, prev, s =>
    match findLeft re prev s with
    | none => s
    | some (pre, m, rest) =>
      if m.isEmpty then
        match rest with
        | [] => pre ++ cb []
        | c :: rest' => pre ++ cb [] ++ c :: replaceCB fuel re cb (some c) rest'
      else pre ++ cb m ++ replaceCB fuel re cb (lastOr m prev) rest

/-! ### Pattern combinators (transcription helpers) -/

def reCat (l : List RE) : RE := l.foldr RE.seq RE.eps

/-- A literal string. -/
def reLit (s : List Char) : RE := reCat (s.map (fun c => RE.cls (fun x => x = c)))

/-- A literal string under the i flag (ASCII case-insensitive). -/
def reLitCI (s : List Char) : RE :=
  reCat (s.map (fun c => RE.cls (fun x => x.toLower = c.toLower)))

/-- A character class given by an explicit character list. -/
def chOf (cs : List Char) : RE := RE.cls (fun c => cs.contains c)

/-- The class \d. -/
def dig : RE := RE.cls Char.isDigit

/-- \d with a counted quantifier (greedy). -/
def digN (lo hi : Nat) : RE := RE.rep dig lo hi false

/-- A ? quantifier (greedy). -/
def ropt (r : RE) : RE := RE.rep r 0 1 false

/-- A + quantifier (greedy). -/
def rplus (r : RE) : RE := RE.seq r (RE.star r false)

/-- Ordered alternation of a list of branches. -/
def reAlts : List RE → RE
  | [] => RE.cls (fun _ => false)
  | [r] => r
  | r :: rs => RE.alt r (reAlts rs)

/-- Every pattern of the source starts and ends with the assertion
\b; mkPat wraps a pattern core accordingly. -/
def mkPat (core : RE) : RE := RE.seq RE.wb (RE.seq core RE.wb)

/-! ## PII masker (src/src/utils/pii.ts) -/

/-- isMaskingEnabled: reads MASK_SENSITIVE_INFO (passed here
explicitly); unset or empty is enabled, the explicit falsy values
0/false/no/off (case-insensitive) disable, the explicit truthy values
1/true/yes/on enable, and any other value is treated as enabled. -/
def isMaskingEnabled (env : Option (List Char)) : Bool :=
  match env with
  | none => true
  | some v =>
    if v.isEmpty then true
    else if ["0".data, "false".data, "no".data, "off".data].contains (toLowerStr v) then false
    else if ["1".data, "true".data, "yes".data, "on".data].contains (toLowerStr v) then true
    else true

/-- isLikelyPhoneNumber: strip non-digits and require between 7 and 15
digits. -/
def isLikelyPhoneNumber (str : List Char) : Bool :=
  let digitsOnly := str.filter Char.isDigit
  decide (7 ≤ digitsOnly.length) && decide (digitsOnly.length ≤ 15)

/-- The class excluded by [^\s] (ASCII whitespace of the model). -/
def isSpaceJS (c : Char) : Bool :=
  c = ' ' || c = '\t' || c = '\n' || c = '\r' || c = '\x0b' || c = '\x0c'

/-- The regex https?:\/\/[^\s]*$ applied by isPartOfUrl. -/
def schemeRE : RE :=
  reCat [reLit "http".data, ropt (reLit "s".data), reLit "://".data,
    RE.star (RE.cls (fun c => !isSpaceJS c)) false]

/-- regex.test for an unanchored regex whose match must extend to the
end of the string (the trailing $ of the scheme regex): try the match
at every start position, requiring the empty remainder. -/
def matchesHere (re : RE) (s : List Char) : Bool :=
  (mrun (reFuel re s) re none s (fun _ r => if r.isEmpty then some [] else none)).isSome

def matchesAtEnd (re : RE) : List Char → Bool
  | [] => matchesHere re []
  | c :: t => matchesHere re (c :: t) || matchesAtEnd re t

/-- isPartOfUrl: locate the match via fullText.indexOf(match) -- the
first occurrence of the matched text, not necessarily the position of
the match itself -- and test the text before that position against the
scheme regex. -/
def isPartOfUrl (m fullText : List Char) : Bool :=
  match idxOf fullText m with
  | none => false
  | some i => matchesAtEnd schemeRE (fullText.take i)

/-- The email pattern. -/
def emailPattern : RE :=
  mkPat (reCat [
    rplus (RE.cls (fun c => c.isAlphanum || c = '.' || c = '_' || c = '%' || c = '+' || c = '-')),
    reLit "@".data,
    rplus (RE.cls (fun c => c.isAlphanum || c = '.' || c = '-')),
    reLit ".".data,
    RE.cls (fun c => c.isUpper || c = '|' || c.isLower),
    RE.cls (fun c => c.isUpper || c = '|' || c.isLower),
    RE.star (RE.cls (fun c => c.isUpper || c = '|' || c.isLower)) false])

/-- The credit-card patterns, in source order: Visa, Mastercard,
American Express, Discover, and the generic separated-digits
fallback. -/
def creditCardPatterns : List RE := [
  mkPat (reCat [reLit "4".data, digN 12 12, ropt (digN 3 3)]),
  mkPat (reCat [reAlts [
      reCat [reLit "5".data, chOf "12345".data, digN 2 2],
      reCat [reLit "222".data, chOf "123456789".data],
      reCat [reLit "22".data, chOf "3456789".data, dig],
      reCat [reLit "2".data, chOf "3456".data, digN 2 2],
      reCat [reLit "27".data, chOf "01".data, dig],
      reLit "2720".data],
    digN 12 12]),
  mkPat (reCat [reLit "3".data, chOf "47".data, digN 13 13]),
  mkPat (reCat [reAlts [
      reLit "6011".data,
      reCat [reLit "65".data, digN 2 2],
      reCat [reLit "64".data, chOf "456789".data, dig],
      reCat [reLit "6221".data, digN 2 2],
      reCat [reLit "6222".data, digN 2 2],
      reCat [reLit "6223".data, digN 2 2],
      reCat [reLit "6224".data, digN 2 2],
      reCat [reLit "6225".data, digN 2 2],
      reCat [reLit "6226".data, digN 2 2],
      reCat [reLit "6227".data, digN 2 2],
      reCat [reLit "6228".data, digN 2 2],
      reCat [reLit "6229".data, digN 2 2]],
    digN 10 12]),
  mkPat (RE.rep (RE.seq dig (RE.star (chOf " -".data) true)) 13 16 false)]

/-- The fifteen phone patterns, in source order. -/
def phonePatterns : List RE := [
  mkPat (reCat [reLit "+".data, digN 1 4, ropt (chOf " .-".data), digN 1 14,
    RE.star (reCat [ropt (chOf " .-".data), digN 1 14]) false]),
  mkPat (reCat [reLit "+".data, digN 1 4, ropt (chOf " .-".data), reLit "(".data, digN 1 4,
    reLit ")".data, ropt (chOf " .-".data), digN 1 14,
    RE.star (reCat [ropt (chOf " .-".data), digN 1 14]) false]),
  mkPat (reCat [reLit "+".data, digN 1 4, ropt (chOf " .-".data), digN 1 4,
    ropt (chOf " .-".data), digN 1 14, reLit "/".data, digN 1 4,
    RE.star (reCat [reLit "/".data, digN 1 4]) false]),
  mkPat (reCat [reLit "1".data, ropt (chOf " .-".data), ropt (reLit "(".data), digN 3 3,
    ropt (reLit ")".data), ropt (chOf " .-".data), digN 3 3, ropt (chOf " .-".data), digN 4 4]),
  mkPat (reCat [digN 3 3, ropt (chOf ".-".data), digN 3 3, ropt (chOf ".-".data), digN 4 4]),
  mkPat (reCat [digN 1 4, chOf " ".data, digN 1 4, chOf " ".data, digN 1 4, chOf " ".data,
    digN 1 4]),
  mkPat (reCat [digN 6 10, RE.rep (reCat [reLit "/".data, digN 1 4]) 1 5 false]),
  mkPat (reCat [reLit "(".data, digN 3 3, reLit ")".data, ropt (chOf " .-".data), digN 3 3,
    ropt (chOf " .-".data), digN 4 4]),
  mkPat (reCat [reLit "+".data, digN 1 4, chOf " ".data, digN 4 4, chOf " ".data, digN 6 6]),
  mkPat (reCat [reLit "+".data, digN 1 4, reLit "(".data, digN 3 3, reLit ")".data, digN 3 3,
    ropt (chOf "-".data), digN 4 4]),
  mkPat (reCat [digN 3 3, chOf "-".data, digN 3 3, chOf "-".data, digN 4 4]),
  mkPat (reCat [reLit "+".data, digN 1 4, ropt (chOf " ".data), digN 1 4, ropt (chOf " ".data),
    digN 4 4, ropt (chOf " ".data), digN 4 4]),
  mkPat (reCat [reLit "+".data, digN 10 15]),
  mkPat (reCat [reLit "+".data, digN 1 4, ropt (chOf " ".data), digN 1 4, ropt (chOf " ".data),
    digN 1 4, ropt (chOf " ".data), digN 1 4]),
  mkPat (reCat [digN 1 4, ropt (chOf " -".data), digN 1 4, ropt (chOf " -".data), digN 1 4,
    ropt (chOf " -".data), digN 1 4])]

/-- The address patterns, in source order: street address (with the
case-insensitive street-type words), PO Box (case-insensitive), UK
postal code, US ZIP code. -/
def addressPatterns : List RE := [
  mkPat (reCat [rplus dig, rplus (RE.cls isSpaceJS),
    rplus (RE.cls (fun c => c.isAlphanum || isSpaceJS c || c = ',' || c = '.' || c = '-')),
    reAlts (["Avenue".data, "Ave".data, "Street".data, "St".data, "Road".data, "Rd".data,
      "Boulevard".data, "Blvd".data, "Lane".data, "Ln".data, "Drive".data, "Dr".data,
      "Court".data, "Ct".data, "Plaza".data, "Plz".data, "Square".data,
      "Sq".data].map reLitCI)]),
  mkPat (reCat [reLitCI "P".data, ropt (reLit ".".data), reLitCI "O".data,
    ropt (reLit ".".data), RE.star (RE.cls isSpaceJS) false, reLitCI "Box".data,
    rplus (RE.cls isSpaceJS), rplus dig]),
  mkPat (reCat [RE.rep (RE.cls Char.isUpper) 1 2 false, dig,
    ropt (RE.cls (fun c => c.isUpper || c.isDigit)), chOf " ".data, dig,
    RE.rep (RE.cls Char.isUpper) 2 2 false]),
  mkPat (reCat [digN 5 5, ropt (reCat [reLit "-".data, digN 4 4])])]

/-- The SSN pattern. -/
def ssnPattern : RE :=
  mkPat (reCat [digN 3 3, ropt (chOf "-".data), digN 2 2, ropt (chOf "-".data), digN 4 4])

def emailPH : List Char := "[EMAIL REDACTED]".data
def cardPH : List Char := "[CARD NUMBER REDACTED]".data
def phonePH : List Char := "[PHONE REDACTED]".data
def addressPH : List Char := "[ADDRESS REDACTED]".data
def ssnPH : List Char := "[SSN REDACTED]".data

/-- The phone replacement callback: keep the match when isPartOfUrl
accepts it, replace it by the placeholder when isLikelyPhoneNumber
accepts it, keep it otherwise.  full is the subject string of the
replace call. -/
def phoneCB (full m : List Char) : List Char :=
  if isPartOfUrl m full then m
  else if isLikelyPhoneNumber m then phonePH else m

/-- The email step: text.match first (on the unmodified text), replace
when at least one match exists. -/
def emailStep (text : List Char) : List Char :=
  match findLeft emailPattern none text with
  | some _ => replaceCB (text.length + 1) emailPattern (fun _ => emailPH) none text
  | none => text

/-- The credit-card step: each pattern replaced in order. -/
def cardSteps (s : List Char) : List Char :=
  creditCardPatterns.foldl
    (fun acc p => replaceCB (acc.length + 1) p (fun _ => cardPH) none acc) s

/-- One full application of the phone patterns in order, with the
guarded callback. -/
def phonePassOnce (s : List Char) : List Char :=
  phonePatterns.foldl
    (fun acc p => replaceCB (acc.length + 1) p (phoneCB acc) none acc) s

/-- The re-scan loop: while (previousMaskedText !== maskedText) set
previousMaskedText := maskedText and re-run the phone pass.  The source
loop carries no iteration cap; the fuel here only serves Lean
totality, and the termination theorems below show that the fuel used
by maskSensitiveInfo always reaches the fixed point. -/
def phoneLoopGo : Nat → List Char → List Char → List Char
  | 0, _, m => m
  | f + 1, prevTxt, m => if prevTxt = m then m else phoneLoopGo f m (phonePassOnce m)

/-- The number of loop-body executions the re-scan loop performs. -/
def phoneLoopCount : Nat → List Char → List Char → Nat
  | 0, _, _ => 0
  | f + 1, prevTxt, m => if prevTxt = m then 0 else phoneLoopCount f m (phonePassOnce m) + 1

/-- The address step. -/
def addressSteps (s : List Char) : List Char :=
  addressPatterns.foldl
    (fun acc p => replaceCB (acc.length + 1) p (fun _ => addressPH) none acc) s

/-- The SSN step. -/
def ssnStep (s : List Char) : List Char :=
  replaceCB (s.length + 1) ssnPattern (fun _ => ssnPH) none s

/-- maskSensitiveInfo: disabled toggle returns the input unchanged;
otherwise emails, credit cards, phones (one pass, then the re-scan
loop started with previousMaskedText = ''), addresses and SSNs are
masked in that order.  The loop fuel digitCount + 2 provably reaches
the fixed point (theorems below), so the fuelled loop agrees with the
unbounded source loop. -/
def maskSensitiveInfo (env : Option (List Char)) (text : List Char) : List Char :=
  if !isMaskingEnabled env then text
  else
    let m1 := emailStep text
    let m2 := cardSteps m1
    let m3 := phonePassOnce m2
    let m4 := phoneLoopGo (digitCount m3 + 2) [] m3
    let m5 := addressSteps m4
    ssnStep m5

/-! ## Spec-side definitions and measures -/

/-- Modelled from the spec (section 4.2, Phone): a candidate match is
accepted exactly when its digit count lies within [7, 15] and the text
immediately preceding the match does not end with an unterminated
scheme fragment.  pre is the text before the candidate. -/
def specAcceptsPhone (pre m : List Char) : Bool :=
  (decide (7 ≤ digitCount m) && decide (digitCount m ≤ 15)) && !matchesAtEnd schemeRE pre

/-- The decision actually taken by the phone callback of the source,
as a Boolean: true when the candidate is replaced. -/
def phoneReplaceDecision (full m : List Char) : Bool :=
  !isPartOfUrl m full && isLikelyPhoneNumber m

/-- Digit-run counter helper: pd records whether the previous
character was a digit; a run is counted at each digit whose predecessor
is not a digit. -/
def runsAux (pd : Bool) : List Char → Nat
  | [] => 0
  | c :: cs => (if c.isDigit && !pd then 1 else 0) + runsAux c.isDigit cs

/-- The number of maximal digit runs of a string. -/
def digitRuns (s : List Char) : Nat := runsAux false s

/-- Whether the previous-character context is a digit. -/
def digOf : Option Char → Bool
  | none => false
  | some c => c.isDigit

/-- The digit context after traversing a list from a given context. -/
def digEnd : Bool → List Char → Bool
  | pd, [] => pd
  | _, c :: cs => digEnd c.isDigit cs

/-- Whether a string does not start with a digit. -/
def headNotDigit (s : List Char) : Bool :=
  match s with
  | [] => true
  | c :: _ => !c.isDigit

/-! ## Resolver lemmas and claim theorems -/

theorem parseTimeToken_of_falsy (f : Option (List Char)) (now : Int)
    (h : jsFalsy f = true) : parseTimeToken f now = none := by
  cases f with
  | none => rfl
  | some s =>
    simp only [jsFalsy] at h
    simp [parseTimeToken, h]

theorem relativeMatch_ne_nil (ts : List Char) (n : Nat) (u : Char)
    (h : relativeMatch ts = some (n, u)) : ts.isEmpty = false := by
  cases ts with
  | nil => simp [relativeMatch] at h
  | cons c rest => rfl

theorem relativeMatch_unit (ts : List Char) (n : Nat) (u : Char)
    (h : relativeMatch ts = some (n, u)) : ∃ k, UNIT_MAP u.toLower = some k := by
  cases ts with
  | nil => simp [relativeMatch] at h
  | cons c rest =>
    unfold relativeMatch at h
    split at h
    · split at h
      · exact absurd h (by simp)
      · split at h
        · rename_i hu
          have hu' : u ∈ "smhdwSMHDW".data := by
            have := Option.some.inj h
            cases this
            simpa using hu
          fin_cases hu' <;> exact ⟨_, rfl⟩
        · exact absurd h (by simp)
      · exact absurd h (by simp)
    · exact absurd h (by simp)

/-- C1: whenever parseTimeRange returns both endpoints, the first is
chronologically at most the second; and the result is always the
independently resolved pre-swap pair, either as is or with the two
endpoints swapped -- no input is rejected to restore the order. -/
theorem parseTimeRange_ordered (f t : Option (List Char)) (now : Int) :
    (∀ a b : Int, (parseTimeRange f t now).1 = some a →
      (parseTimeRange f t now).2 = some b → a ≤ b) ∧
    (parseTimeRange f t now = parseTimeRangePre f t now ∨
      parseTimeRange f t now =
        ((parseTimeRangePre f t now).2, (parseTimeRangePre f t now).1)) := by
  unfold parseTimeRange
  rcases hpre : parseTimeRangePre f t now with ⟨ff, ft⟩
  rcases ff with _ | a' <;> rcases ft with _ | b'
  · exact ⟨fun a b h1 _ => by simp at h1, Or.inl rfl⟩
  · exact ⟨fun a b h1 _ => by simp at h1, Or.inl rfl⟩
  · exact ⟨fun a b _ h2 => by simp at h2, Or.inl rfl⟩
  · constructor
    · intro a b h1 h2
      by_cases hlt : b' < a'
      · simp only [hlt, if_pos] at h1 h2
        cases h1; cases h2; omega
      · simp only [hlt, if_neg, not_false_iff] at h1 h2
        cases h1; cases h2; omega
    · by_cases hlt : b' < a'
      · right; simp [hlt]
      · left; simp [hlt]

/-- C1 witness: the swap example of the spec, evaluated at now = 0. -/
theorem parseTimeRange_ordered_witness :
    (1735689600 : Int) ≤ 1736467200 ∧
    parseTimeRange (some "2025-01-10T00:00:00Z".data) (some "2025-01-01T00:00:00Z".data) 0 =
      (some 1735689600, some 1736467200) := by
  refine ⟨?_, ?_⟩
  · exact (parseTimeRange_ordered (some "2025-01-10T00:00:00Z".data)
      (some "2025-01-01T00:00:00Z".data) 0).1 1735689600 1736467200 (by decide) (by decide)
  · decide

/-- C4: with no from supplied and to supplied as a relative token, the
resolver treats the magnitude as a window ending now (to = now, from =
now minus the magnitude); and with a non-empty from supplied, even an
unparseable one, the rule does not apply: from stays absent and to is
resolved directly. -/
theorem parseTimeRange_window_rule :
    (∀ (f : Option (List Char)) (ts : List Char) (now : Int) (n : Nat) (u : Char) (k : Nat),
      jsFalsy f = true → relativeMatch ts = some (n, u) → UNIT_MAP u.toLower = some k →
      parseTimeRange f (some ts) now = (some (now - (n : Int) * k), some now)) ∧
    (∀ (fs : List Char) (t : Option (List Char)) (now : Int),
      fs ≠ [] → parseTimeToken (some fs) now = none →
      parseTimeRange (some fs) t now = (none, parseTimeToken t now)) := by
  constructor
  · intro f ts now n u k hf hrel hunit
    have hrf : parseTimeToken f now = none := parseTimeToken_of_falsy f now hf
    have hts : ts.isEmpty = false := relativeMatch_ne_nil ts n u hrel
    have hpre : parseTimeRangePre f (some ts) now = (some (now - (n : Int) * k), some now) := by
      unfold parseTimeRangePre
      simp [hrf, hf, hts, hrel, hunit]
    unfold parseTimeRange
    rw [hpre]
    have hnn : (0 : Int) ≤ (n : Int) * k := by positivity
    have : ¬ (now < now - (n : Int) * k) := by omega
    simp [this]
  · intro fs t now hfs hnone
    have hfalsy : jsFalsy (some fs) = false := by
      cases fs with
      | nil => exact absurd rfl hfs
      | cons c r => rfl
    have hpre : parseTimeRangePre (some fs) t now = (none, parseTimeToken t now) := by
      unfold parseTimeRangePre
      simp [hnone, hfalsy]
    unfold parseTimeRange
    rw [hpre]

/-- C4 witness: resolve(to = "-2h") with from omitted yields the
window (now - 2h, now) at now = 0, and a supplied unparseable from
suppresses the rule. -/
theorem parseTimeRange_window_rule_witness :
    parseTimeRange none (some "-2h".data) 0 = (some (-7200), some 0) ∧
    parseTimeRange (some "garbage".data) (some "now".data) 5 = (none, some 5) := by
  constructor
  · have h := parseTimeRange_window_rule.1 none "-2h".data 0 2 'h' 3600 (by decide) (by decide)
      (by decide)
    rw [h]
    norm_num
  · have h := parseTimeRange_window_rule.2 "garbage".data (some "now".data) 5 (by decide)
      (by decide)
    rw [h]
    decide

/-- C5 counterexample: the token 2025-01-10T00:00:00+05:00 parses to
the instant 1736449200, and the string the source returns for it
(momentFormat of that instant) is 2025-01-09T19:00:00+00:00 -- the
same instant rendered with the runtime offset +00:00, not with the
+05:00 timezone of the input, refuting the claim that the timezone
information of the input is preserved. -/
theorem parseTimeToken_timezone_counterexample :
    parseTimeToken (some "2025-01-10T00:00:00+05:00".data) 0 = some 1736449200 ∧
    momentFormat 1736449200 = "2025-01-09T19:00:00+00:00".data ∧
    "2025-01-09T19:00:00+00:00".data.drop 19 = "+00:00".data ∧
    "2025-01-10T00:00:00+05:00".data.drop 19 = "+05:00".data :=
  ⟨by decide, by decide, by decide, by decide⟩

/-- C5 amended: for a token that is neither now nor a relative
expression, a successful calendar parse makes parseTimeToken return
exactly the parsed instant (the source renders it with momentFormat in
the runtime's fixed zone; the offset written in the token is not kept
in the rendering, only the instant it denotes). -/
theorem parseTimeToken_calendar_amended (tok : List Char) (now i : Int)
    (h1 : toLowerStr tok ≠ "now".data) (h2 : relativeMatch tok = none)
    (h3 : momentParse tok = some i) :
    parseTimeToken (some tok) now = some i := by
  have hne : tok.isEmpty = false := by
    cases tok with
    | nil => simp [momentParse, readFixed] at h3
    | cons c r => rfl
  unfold parseTimeToken
  simp [hne, h1, h2, h3]

/-- C5 amended witness at a concrete calendar token. -/
theorem parseTimeToken_calendar_amended_witness :
    parseTimeToken (some "2025-06-15".data) 99 = some 1749945600 :=
  parseTimeToken_calendar_amended "2025-06-15".data 99 1749945600 (by decide) (by decide)
    (by decide)

/-- C10: an empty-string token behaves exactly like an omitted one:
parseTimeToken yields absent, and parseTimeRange treats an empty from
or to exactly like an absent one; in particular resolve(from = "",
to = "-2h") applies the window rule. -/
theorem emptyToken_like_omitted :
    (∀ now : Int, parseTimeToken (some []) now = none) ∧
    (∀ (f : Option (List Char)) (now : Int),
      parseTimeRange f (some []) now = parseTimeRange f none now) ∧
    (∀ (t : Option (List Char)) (now : Int),
      parseTimeRange (some []) t now = parseTimeRange none t now) ∧
    parseTimeRange (some []) (some "-2h".data) 7 = (some (-7193), some 7) := by
  refine ⟨fun now => rfl, ?_, ?_, by decide⟩
  · intro f now
    have hpre : parseTimeRangePre f (some []) now = parseTimeRangePre f none now := by
      unfold parseTimeRangePre
      simp [jsFalsy, parseTimeToken]
    unfold parseTimeRange
    rw [hpre]
  · intro t now
    have hpre : parseTimeRangePre (some []) t now = parseTimeRangePre none t now := by
      unfold parseTimeRangePre
      simp [jsFalsy, parseTimeToken]
    unfold parseTimeRange
    rw [hpre]

theorem parseTimeRangePreE_ok (f t : Option (List Char)) (now : Int) :
    parseTimeRangePreE f t now = Except.ok (parseTimeRangePre f t now) := by
  unfold parseTimeRangePreE parseTimeRangePre
  cases hf : jsFalsy f with
  | false => simp [hf]
  | true =>
    simp only [hf, Bool.not_true, Bool.false_eq_true, if_false]
    cases t with
    | none => rfl
    | some ts =>
      by_cases hts : ts.isEmpty
      · simp [hts]
      · simp only [hts, Bool.false_eq_true, if_false]
        cases hrel : relativeMatch ts with
        | none => simp [hrel]
        | some nu =>
          obtain ⟨n, u⟩ := nu
          obtain ⟨k, hk⟩ := relativeMatch_unit ts n u hrel
          by_cases hrf : (parseTimeToken f now).isSome
          · simp [hrel, hrf]
          · simp only [Bool.not_eq_true] at hrf
            simp [hrel, hrf, hk]

/-- C9: neither core operation raises: the exception-explicit model of
the resolver (the non-null match assertion and the unit lookup of the
window branch) always returns ok with the value of the total model,
for every pair of tokens; and a pattern without a match leaves the
text unchanged in a replace step of the masker. -/
theorem core_never_throws :
    (∀ (f t : Option (List Char)) (now : Int),
      parseTimeRangeE f t now = Except.ok (parseTimeRange f t now)) ∧
    (∀ (fuel : Nat) (re : RE) (cb : List Char → List Char) (prev : Option Char)
      (s : List Char), findLeft re prev s = none → replaceCB fuel re cb prev s = s) := by
  constructor
  · intro f t now
    unfold parseTimeRangeE parseTimeRange
    rw [parseTimeRangePreE_ok]
    rcases parseTimeRangePre f t now with ⟨ff, ft⟩
    rcases ff with _ | a <;> rcases ft with _ | b <;> rfl
  · intro fuel re cb prev s h
    cases fuel with
    | zero => rfl
    | succ n =>
      unfold replaceCB
      rw [h]

/-- C9 witness: a malformed to token resolves without an exception,
and a text without an email match passes the email replace
unchanged. -/
theorem core_never_throws_witness :
    parseTimeRangeE none (some "abc".data) 3 =
      Except.ok (parseTimeRange none (some "abc".data) 3) ∧
    replaceCB 4 emailPattern (fun _ => emailPH) none "abc".data = "abc".data :=
  ⟨core_never_throws.1 none (some "abc".data) 3,
    core_never_throws.2 4 emailPattern (fun _ => emailPH) none "abc".data (by decide)⟩

/-- C7: the toggle is disabled exactly for an explicit falsy value
(0, false, no, off, case-insensitively), so an explicit truthy value,
an absent or empty value, and every unrecognized value all enable
masking; and a disabled toggle makes maskSensitiveInfo return its
input unchanged. -/
theorem masking_toggle_tristate :
    (∀ env : Option (List Char), isMaskingEnabled env = false ↔
      ∃ v, env = some v ∧ (toLowerStr v = "0".data ∨ toLowerStr v = "false".data ∨
        toLowerStr v = "no".data ∨ toLowerStr v = "off".data)) ∧
    (∀ (env : Option (List Char)) (text : List Char),
      isMaskingEnabled env = false → maskSensitiveInfo env text = text) := by
  constructor
  · intro env
    cases env with
    | none => simp [isMaskingEnabled]
    | some v =>
      by_cases hv : v.isEmpty
      · have hv' : v = [] := by simpa [List.isEmpty_iff] using hv
        subst hv'
        simp [isMaskingEnabled, toLowerStr]
      · by_cases hc : ["0".data, "false".data, "no".data, "off".data].contains (toLowerStr v)
        · have hm := List.elem_iff.mp hc
          simp only [List.mem_cons, List.not_mem_nil, or_false] at hm
          constructor
          · intro _
            exact ⟨v, rfl, hm⟩
          · intro _
            show (if v.isEmpty = true then true
              else if ["0".data, "false".data, "no".data, "off".data].contains
                  (toLowerStr v) = true then false
              else if ["1".data, "true".data, "yes".data, "on".data].contains
                  (toLowerStr v) = true then true
              else true) = false
            rw [if_neg hv, if_pos hc]
        · have hm : ¬ (toLowerStr v = "0".data ∨ toLowerStr v = "false".data ∨
              toLowerStr v = "no".data ∨ toLowerStr v = "off".data) := by
            intro hor
            exact hc (List.elem_iff.mpr (by simpa [List.mem_cons] using hor))
          constructor
          · intro hfalse
            exfalso
            simp only [isMaskingEnabled, hv, hc, Bool.false_eq_true, if_false, ite_self] at hfalse
            exact Bool.noConfusion hfalse
          · intro ⟨w, hw, hor⟩
            cases hw
            exact absurd hor hm
  · intro env text h
    unfold maskSensitiveInfo
    simp [h]

/-- C7 witness: an explicitly disabled toggle returns the test input
of the repository unchanged. -/
theorem masking_toggle_tristate_witness :
    maskSensitiveInfo (some "FALSE".data)
      "Email: test.user@example.com Phone: +1 (555) 123-4567".data =
      "Email: test.user@example.com Phone: +1 (555) 123-4567".data :=
  masking_toggle_tristate.2 (some "FALSE".data)
    "Email: test.user@example.com Phone: +1 (555) 123-4567".data (by decide)

/-- C2 counterexample: mask is not idempotent.  Masking the SSN inside
the URL path inserts a placeholder containing a space, which breaks
the scheme context guarding the trailing digit run, so a second
application of mask additionally replaces that run. -/
theorem mask_not_idempotent_counterexample :
    maskSensitiveInfo none (maskSensitiveInfo none "http://x/123-45-6789/5551234".data) ≠
      maskSensitiveInfo none "http://x/123-45-6789/5551234".data := by
  have h1 : maskSensitiveInfo none "http://x/123-45-6789/5551234".data =
      "http://x/[SSN REDACTED]/5551234".data := by decide
  have h2 : maskSensitiveInfo none "http://x/[SSN REDACTED]/5551234".data =
      "http://x/[SSN REDACTED]/[PHONE REDACTED]".data := by decide
  rw [h1, h2]
  decide

/-- C2 amended: idempotence fails in general (a first-pass
replacement can disable the URL guard of a phone candidate); on the
exhibited input the second application masks the remaining candidate
and a third application changes nothing further, and no placeholder
token is itself ever re-masked. -/
theorem mask_not_idempotent_amended :
    maskSensitiveInfo none "http://x/123-45-6789/5551234".data =
      "http://x/[SSN REDACTED]/5551234".data ∧
    maskSensitiveInfo none (maskSensitiveInfo none "http://x/123-45-6789/5551234".data) =
      "http://x/[SSN REDACTED]/[PHONE REDACTED]".data ∧
    maskSensitiveInfo none (maskSensitiveInfo none (maskSensitiveInfo none
        "http://x/123-45-6789/5551234".data)) =
      maskSensitiveInfo none (maskSensitiveInfo none "http://x/123-45-6789/5551234".data) := by
  have h1 : maskSensitiveInfo none "http://x/123-45-6789/5551234".data =
      "http://x/[SSN REDACTED]/5551234".data := by decide
  have h2 : maskSensitiveInfo none "http://x/[SSN REDACTED]/5551234".data =
      "http://x/[SSN REDACTED]/[PHONE REDACTED]".data := by decide
  have h3 : maskSensitiveInfo none "http://x/[SSN REDACTED]/[PHONE REDACTED]".data =
      "http://x/[SSN REDACTED]/[PHONE REDACTED]".data := by decide
  refine ⟨h1, by rw [h1, h2], ?_⟩
  rw [h1, h2, h3]

/-- C3 counterexample: in the text http://a.b/5551234 x 5551234 the
second, free-standing 5551234 is a plausible candidate whose preceding
text does not end in an unterminated scheme fragment, yet the source
rejects it: isPartOfUrl locates the candidate text via indexOf, which
finds the first occurrence (inside the URL), so the guard is evaluated
at the wrong position and the whole text is left unmasked. -/
theorem phone_guard_counterexample :
    phoneReplaceDecision "http://a.b/5551234 x 5551234".data "5551234".data = false ∧
    specAcceptsPhone "http://a.b/5551234 x ".data "5551234".data = true ∧
    "http://a.b/5551234 x ".data ++ "5551234".data = "http://a.b/5551234 x 5551234".data ∧
    maskSensitiveInfo none "http://a.b/5551234 x 5551234".data =
      "http://a.b/5551234 x 5551234".data := by
  refine ⟨by decide, by decide, by decide, by decide⟩

/-- C3 amended: the guard pair is evaluated at the first occurrence of
the matched text: whenever the candidate is the first occurrence of
its text in the full string, the replacement decision coincides with
the spec guard (plausible digit count and no unterminated scheme
before the match); and the spec URL example stays unmasked. -/
theorem phone_guard_amended :
    (∀ pre m rest : List Char,
      idxOf (pre ++ m ++ rest) m = some pre.length →
      phoneReplaceDecision (pre ++ m ++ rest) m = specAcceptsPhone pre m) ∧
    maskSensitiveInfo none "http://example.com/12345678901".data =
      "http://example.com/12345678901".data := by
  constructor
  · intro pre m rest h
    have htake : (pre ++ m ++ rest).take pre.length = pre := by
      rw [List.append_assoc]
      exact List.take_left pre (m ++ rest)
    unfold phoneReplaceDecision specAcceptsPhone isPartOfUrl isLikelyPhoneNumber
    rw [h]
    simp only [htake, digitCount, Bool.and_comm, Bool.and_left_comm, Bool.and_assoc]
  · decide

/-- C3 amended witness: a free-standing candidate that is the first
occurrence of its text is decided exactly by the spec guard. -/
theorem phone_guard_amended_witness :
    phoneReplaceDecision ("Call ".data ++ "8005551234".data ++ []) "8005551234".data =
      specAcceptsPhone "Call ".data "8005551234".data :=
  phone_guard_amended.1 "Call ".data "8005551234".data [] (by decide)

set_option maxRecDepth 20000 in
/-- C6 evaluation at the failing input: on a cascading input the
re-scan loop executes its body three times (two changing passes and a
stabilizing one), governed solely by the until-stable condition; the
source's while loop carries no iteration counter, so no constant cap
is imposed on top of convergence. -/
theorem phone_loop_no_cap_eval :
    phoneLoopCount 64 []
      (phonePassOnce "z 1111111 w http://k/1111111/2222222 http://m/2222222/3333333".data)
      = 3 := by
  decide

/-! ## Termination of the re-scan loop (C8 infrastructure) -/

theorem lastOr_append (x y : List Char) (d : Option Char) :
    lastOr (x ++ y) d = lastOr y (lastOr x d) := by
  induction x generalizing d with
  | nil => rfl
  | cons c cs ih =>
    simp only [List.cons_append, lastOr]
    exact ih (some c)

theorem digOf_lastOr (l : List Char) (d : Option Char) :
    digOf (lastOr l d) = digEnd (digOf d) l := by
  induction l generalizing d with
  | nil => rfl
  | cons c cs ih =>
    simp only [lastOr, digEnd]
    exact ih (some c)

theorem digEnd_cons (b : Bool) (c : Char) (cs : List Char) :
    digEnd b (c :: cs) = digEnd c.isDigit cs := rfl

theorem digEnd_append (b : Bool) (x y : List Char) :
    digEnd b (x ++ y) = digEnd (digEnd b x) y := by
  induction x generalizing b with
  | nil => rfl
  | cons c cs ih =>
    simp only [List.cons_append, digEnd]
    exact ih c.isDigit

theorem runsAux_append (x y : List Char) : ∀ pd : Bool,
    runsAux pd (x ++ y) = runsAux pd x + runsAux (digEnd pd x) y := by
  induction x with
  | nil => intro pd; simp [runsAux, digEnd]
  | cons c cs ih =>
    intro pd
    simp only [List.cons_append, runsAux, digEnd, List.append_eq, ih c.isDigit]
    omega

theorem runsAux_head_indep (s : List Char) (h : headNotDigit s = true) (b b' : Bool) :
    runsAux b s = runsAux b' s := by
  cases s with
  | nil => rfl
  | cons c cs =>
    simp only [headNotDigit, Bool.not_eq_true'] at h
    simp [runsAux, h]

theorem digitCount_cons (c : Char) (cs : List Char) :
    digitCount (c :: cs) = (if c.isDigit then 1 else 0) + digitCount cs := by
  simp only [digitCount, List.filter_cons]
  split <;> simp [List.length_cons] <;> omega

theorem runsAux_pos (m : List Char) : ∀ pd : Bool, 1 ≤ digitCount m →
    (pd = false ∨ headNotDigit m = true) → 1 ≤ runsAux pd m := by
  induction m with
  | nil => intro pd h _; simp [digitCount] at h
  | cons c cs ih =>
    intro pd h hh
    by_cases hc : c.isDigit
    · have hpd : pd = false := by
        rcases hh with h1 | h1
        · exact h1
        · simp [headNotDigit, hc] at h1
      simp [runsAux, hc, hpd]
    · have hcf : c.isDigit = false := by simpa using hc
      have hcs : 1 ≤ digitCount cs := by
        rw [digitCount_cons, hcf] at h
        simpa using h
      have hrec := ih c.isDigit hcs (Or.inl (by simp [hcf]))
      simp only [runsAux]
      rw [hcf] at hrec ⊢
      simp only [Bool.false_and, if_false]
      omega

theorem noDigits_all (x : List Char) (h : digitCount x = 0) :
    ∀ c ∈ x, c.isDigit = false := by
  intro c hc
  by_cases hd : c.isDigit
  · exfalso
    have : c ∈ x.filter Char.isDigit := List.mem_filter.mpr ⟨hc, hd⟩
    have hlen : x.filter Char.isDigit = [] := List.length_eq_zero.mp h
    rw [hlen] at this
    exact List.not_mem_nil c this
  · simpa using hd

theorem runsAux_zero_of_noDigits (x : List Char) (h : digitCount x = 0) (pd : Bool) :
    runsAux pd x = 0 := by
  induction x generalizing pd with
  | nil => rfl
  | cons c cs ih =>
    have hc : c.isDigit = false := noDigits_all (c :: cs) h c (List.mem_cons_self c cs)
    have hcs : digitCount cs = 0 := by
      rw [digitCount_cons, hc] at h
      simpa using h
    simp [runsAux, hc, ih hcs]

theorem digEnd_false_of_noDigits (x : List Char) (h : digitCount x = 0) (hne : x ≠ [])
    (pd : Bool) : digEnd pd x = false := by
  induction x generalizing pd with
  | nil => exact absurd rfl hne
  | cons c cs ih =>
    have hc : c.isDigit = false := noDigits_all (c :: cs) h c (List.mem_cons_self c cs)
    have hcs : digitCount cs = 0 := by
      rw [digitCount_cons, hc] at h
      simpa using h
    cases hcc : cs with
    | nil => simp [digEnd, hc]
    | cons d ds =>
      rw [digEnd_cons]
      exact hcc ▸ ih (hcc ▸ hcs) (by simp [hcc]) c.isDigit

theorem headNotDigit_of_noDigits (x : List Char) (h : digitCount x = 0) :
    headNotDigit x = true := by
  cases x with
  | nil => rfl
  | cons c cs =>
    simp only [headNotDigit, Bool.not_eq_true']
    exact noDigits_all (c :: cs) h c (List.mem_cons_self c cs)

theorem isWordChar_of_isDigit (c : Char) (h : c.isDigit = true) : isWordChar c = true := by
  simp [isWordChar, Char.isAlphanum, h]

theorem digOf_false_of_boundary (p : Option Char) (c : Char)
    (hb : atBoundary p (some c) = true) (hc : c.isDigit = true) : digOf p = false := by
  have hw : wordOpt (some c) = true := by simpa [wordOpt] using isWordChar_of_isDigit c hc
  have hp : wordOpt p = false := by
    by_contra hcon
    simp only [Bool.not_eq_false] at hcon
    rw [atBoundary, hcon, hw] at hb
    simp at hb
  cases p with
  | none => rfl
  | some d =>
    simp only [wordOpt] at hp
    simp only [digOf]
    by_cases hd : d.isDigit
    · exact absurd (isWordChar_of_isDigit d (by simpa using hd)) (by simp [hp])
    · simpa using hd

theorem headNotDigit_of_boundary (p : Char) (r : List Char)
    (hp : p.isDigit = true) (hb : atBoundary (some p) r.head? = true) :
    headNotDigit r = true := by
  have hw : wordOpt (some p) = true := by simpa [wordOpt] using isWordChar_of_isDigit p hp
  cases r with
  | nil => rfl
  | cons c cs =>
    simp only [List.head?] at hb
    simp only [headNotDigit, Bool.not_eq_true']
    by_contra hcon
    simp only [Bool.not_eq_false] at hcon
    have hwc : wordOpt (some c) = true := by
      simpa [wordOpt] using isWordChar_of_isDigit c hcon
    rw [atBoundary, hw, hwc] at hb
    simp at hb

/-- Master decomposition: a successful continuation-passing match call
splits the input into the consumed part and the remainder handed to
the continuation, which also receives the last consumed character. -/
theorem mrun_split (fuel : Nat) :
    ∀ (re : RE) (prev : Option Char) (s : List Char)
      (k : Option Char → List Char → Option (List Char)) (out : List Char),
      mrun fuel re prev s k = some out →
      ∃ pfx r, s = pfx ++ r ∧ k (lastOr pfx prev) r = some out := by
  induction fuel with
  | zero =>
    intro re prev s k out h
    simp [mrun] at h
  | succ n ih =>
    intro re prev s k out h
    cases re with
    | eps => exact ⟨[], s, rfl, h⟩
    | cls p =>
      cases s with
      | nil => simp [mrun] at h
      | cons c rest =>
        simp only [mrun] at h
        split at h
        · exact ⟨[c], rest, rfl, h⟩
        · exact absurd h (by simp)
    | seq a b =>
      simp only [mrun] at h
      obtain ⟨p1, r1, hs1, hk1⟩ := ih a prev s _ out h
      obtain ⟨p2, r2, hs2, hk2⟩ := ih b (lastOr p1 prev) r1 k out hk1
      exact ⟨p1 ++ p2, r2, by rw [hs1, hs2, List.append_assoc], by rwa [lastOr_append]⟩
    | alt a b =>
      simp only [mrun] at h
      cases ha : mrun n a prev s k with
      | some v =>
        rw [ha] at h
        simp only [Option.orElse] at h
        injection h with hv
        subst hv
        exact ih a prev s k v ha
      | none =>
        rw [ha] at h
        simp only [Option.orElse] at h
        exact ih b prev s k out h
    | rep a lo hi lz =>
      simp only [mrun] at h
      by_cases h0 : hi = 0
      · rw [if_pos h0] at h
        exact ⟨[], s, rfl, h⟩
      · rw [if_neg h0] at h
        by_cases hlo : lo > 0
        · rw [if_pos hlo] at h
          obtain ⟨p1, r1, hs1, hk1⟩ := ih a prev s _ out h
          obtain ⟨p2, r2, hs2, hk2⟩ := ih _ (lastOr p1 prev) r1 k out hk1
          exact ⟨p1 ++ p2, r2, by rw [hs1, hs2, List.append_assoc], by rwa [lastOr_append]⟩
        · rw [if_neg hlo] at h
          by_cases hlz : lz = true
          · rw [if_pos hlz] at h
            cases hk : k prev s with
            | some v =>
              rw [hk] at h
              simp only [Option.orElse] at h
              injection h with hv
              subst hv
              exact ⟨[], s, rfl, hk⟩
            | none =>
              rw [hk] at h
              simp only [Option.orElse] at h
              obtain ⟨p1, r1, hs1, hk1⟩ := ih a prev s _ out h
              split at hk1
              · obtain ⟨p2, r2, hs2, hk2⟩ := ih _ (lastOr p1 prev) r1 k out hk1
                exact ⟨p1 ++ p2, r2, by rw [hs1, hs2, List.append_assoc],
                  by rwa [lastOr_append]⟩
              · exact absurd hk1 (by simp)
          · rw [if_neg hlz] at h
            cases hm : mrun n a prev s (fun p r =>
                if r.length < s.length then mrun n (.rep a 0 (hi - 1) lz) p r k
                else none) with
            | some v =>
              rw [hm] at h
              simp only [Option.orElse] at h
              injection h with hv
              subst hv
              obtain ⟨p1, r1, hs1, hk1⟩ := ih a prev s _ v hm
              split at hk1
              · obtain ⟨p2, r2, hs2, hk2⟩ := ih _ (lastOr p1 prev) r1 k v hk1
                exact ⟨p1 ++ p2, r2, by rw [hs1, hs2, List.append_assoc],
                  by rwa [lastOr_append]⟩
              · exact absurd hk1 (by simp)
            | none =>
              rw [hm] at h
              simp only [Option.orElse] at h
              exact ⟨[], s, rfl, h⟩
    | star a lz =>
      simp only [mrun] at h
      by_cases hlz : lz = true
      · rw [if_pos hlz] at h
        cases hk : k prev s with
        | some v =>
          rw [hk] at h
          simp only [Option.orElse] at h
          injection h with hv
          subst hv
          exact ⟨[], s, rfl, hk⟩
        | none =>
          rw [hk] at h
          simp only [Option.orElse] at h
          obtain ⟨p1, r1, hs1, hk1⟩ := ih a prev s _ out h
          split at hk1
          · obtain ⟨p2, r2, hs2, hk2⟩ := ih _ (lastOr p1 prev) r1 k out hk1
            exact ⟨p1 ++ p2, r2, by rw [hs1, hs2, List.append_assoc], by rwa [lastOr_append]⟩
          · exact absurd hk1 (by simp)
      · rw [if_neg hlz] at h
        cases hm : mrun n a prev s (fun p r =>
            if r.length < s.length then mrun n (.star a lz) p r k else none) with
        | some v =>
          rw [hm] at h
          simp only [Option.orElse] at h
          injection h with hv
          subst hv
          obtain ⟨p1, r1, hs1, hk1⟩ := ih a prev s _ v hm
          split at hk1
          · obtain ⟨p2, r2, hs2, hk2⟩ := ih _ (lastOr p1 prev) r1 k v hk1
            exact ⟨p1 ++ p2, r2, by rw [hs1, hs2, List.append_assoc], by rwa [lastOr_append]⟩
          · exact absurd hk1 (by simp)
        | none =>
          rw [hm] at h
          simp only [Option.orElse] at h
          exact ⟨[], s, rfl, h⟩
    | wb =>
      simp only [mrun] at h
      split at h
      · exact ⟨[], s, rfl, h⟩
      · exact absurd h (by simp)

theorem matchAt_split (fuel : Nat) (re : RE) (prev : Option Char) (s rest : List Char)
    (h : matchAt fuel re prev s = some rest) : ∃ m, s = m ++ rest := by
  obtain ⟨pfx, r, hs, hk⟩ := mrun_split fuel re prev s _ rest h
  injection hk with hr
  exact ⟨pfx, hr ▸ hs⟩

theorem mrun_seq_wb_elim (fuel : Nat) (x : RE) (prev : Option Char) (s : List Char)
    (k : Option Char → List Char → Option (List Char)) (out : List Char)
    (h : mrun fuel (RE.seq RE.wb x) prev s k = some out) :
    atBoundary prev s.head? = true ∧ ∃ f, mrun f x prev s k = some out := by
  cases fuel with
  | zero => simp [mrun] at h
  | succ n =>
    simp only [mrun] at h
    cases n with
    | zero => simp [mrun] at h
    | succ n2 =>
      simp only [mrun] at h
      split at h
      · exact ⟨by assumption, n2 + 1, h⟩
      · exact absurd h (by simp)

theorem mrun_seq_tail_wb_elim (fuel : Nat) (core : RE) (prev : Option Char) (s : List Char)
    (k : Option Char → List Char → Option (List Char)) (out : List Char)
    (h : mrun fuel (RE.seq core RE.wb) prev s k = some out) :
    ∃ pfx r, s = pfx ++ r ∧ atBoundary (lastOr pfx prev) r.head? = true ∧
      k (lastOr pfx prev) r = some out := by
  cases fuel with
  | zero => simp [mrun] at h
  | succ n =>
    simp only [mrun] at h
    obtain ⟨pfx, r, hs, hk⟩ := mrun_split n core prev s _ out h
    cases n with
    | zero => simp [mrun] at hk
    | succ n2 =>
      simp only [mrun] at hk
      split at hk
      · exact ⟨pfx, r, hs, by assumption, hk⟩
      · exact absurd hk (by simp)

/-- Every source pattern is wrapped in word boundaries; a successful
match therefore sits at boundaries: the consumed text starts at a
boundary against the previous character and ends at a boundary against
the remainder. -/
theorem matchAt_mkPat (fuel : Nat) (core : RE) (prev : Option Char) (s rest : List Char)
    (h : matchAt fuel (mkPat core) prev s = some rest) :
    ∃ m, s = m ++ rest ∧ atBoundary prev s.head? = true ∧
      atBoundary (lastOr m prev) rest.head? = true := by
  unfold matchAt mkPat at h
  obtain ⟨hb, f, h2⟩ := mrun_seq_wb_elim fuel _ prev s _ rest h
  obtain ⟨pfx, r, hs, hb2, hk⟩ := mrun_seq_tail_wb_elim f core prev s _ rest h2
  injection hk with hr
  subst hr
  exact ⟨pfx, hs, hb, hb2⟩

theorem take_of_append (m rest : List Char) :
    (m ++ rest).take ((m ++ rest).length - rest.length) = m := by
  rw [List.length_append]
  have : m.length + rest.length - rest.length = m.length := by omega
  rw [this]
  exact List.take_left m rest

/-- findLeft decomposes its input around the leftmost match, and the
match is a successful matchAt at that position with the correct
previous-character context. -/
theorem findLeft_spec (re : RE) :
    ∀ (prev : Option Char) (s pre m rest : List Char),
      findLeft re prev s = some (pre, m, rest) →
      s = pre ++ m ++ rest ∧
        matchAt (reFuel re (m ++ rest)) re (lastOr pre prev) (m ++ rest) = some rest := by
  intro prev s
  induction s generalizing prev with
  | nil =>
    intro pre m rest h
    simp only [findLeft] at h
    cases hm : matchAt (reFuel re []) re prev [] with
    | some r0 =>
      rw [hm] at h
      injection h with h2
      injection h2 with h21 h22
      injection h22 with h23 h24
      subst h21
      subst h23
      subst h24
      have hr0 : r0 = [] := by
        obtain ⟨mm, hmm⟩ := matchAt_split _ _ _ _ _ hm
        cases mm with
        | nil => simpa using hmm.symm
        | cons a b => simp at hmm
      subst hr0
      exact ⟨rfl, by simpa using hm⟩
    | none =>
      rw [hm] at h
      exact absurd h (by simp)
  | cons c s2 ih =>
    intro pre m rest h
    simp only [findLeft] at h
    cases hm : matchAt (reFuel re (c :: s2)) re prev (c :: s2) with
    | some r0 =>
      rw [hm] at h
      injection h with h2
      injection h2 with h21 h22
      injection h22 with h23 h24
      subst h21
      subst h23
      subst h24
      obtain ⟨mm, hmm⟩ := matchAt_split _ _ _ _ _ hm
      have htk : (c :: s2).take ((c :: s2).length - r0.length) = mm := by
        rw [hmm]
        exact take_of_append mm r0
      rw [htk]
      refine ⟨by rw [hmm]; simp, ?_⟩
      rw [← hmm]
      exact hm
    | none =>
      rw [hm] at h
      cases hf : findLeft re (some c) s2 with
      | some t =>
        obtain ⟨pre2, m2, rest2⟩ := t
        rw [hf] at h
        injection h with h2
        injection h2 with h21 h22
        injection h22 with h23 h24
        subst h21
        subst h23
        subst h24
        obtain ⟨ihs, ihm⟩ := ih (some c) pre2 m2 rest2 hf
        constructor
        · rw [ihs]
          rfl
        · exact ihm
      | none =>
        rw [hf] at h
        exact absurd h (by simp)

theorem runsAux_cons (b : Bool) (c : Char) (x : List Char) :
    runsAux b (c :: x) = (if c.isDigit && !b then 1 else 0) + runsAux c.isDigit x := rfl

theorem runs_decomp3 (pd : Bool) (pre mid tail : List Char) :
    runsAux pd (pre ++ mid ++ tail) = runsAux pd pre + runsAux (digEnd pd pre) mid +
      runsAux (digEnd (digEnd pd pre) mid) tail := by
  rw [runsAux_append (pre ++ mid) tail, runsAux_append pre mid, digEnd_append]

theorem lastOr_irrel (m : List Char) (d d' : Option Char) (h : m ≠ []) :
    lastOr m d = lastOr m d' := by
  cases m with
  | nil => exact absurd rfl h
  | cons c cs => rfl

theorem headNotDigit_append (x y : List Char) (hx : x ≠ []) (h : headNotDigit x = true) :
    headNotDigit (x ++ y) = true := by
  cases x with
  | nil => exact absurd rfl hx
  | cons c cs => simpa [headNotDigit] using h

theorem headNotDigit_cons (c : Char) (x y : List Char) :
    headNotDigit (c :: x) = headNotDigit (c :: y) := rfl

/-- The central replacement lemma: a guarded placeholder replacement
over a boundary-wrapped pattern preserves a non-digit head, never
increases the number of digit runs, and strictly decreases it whenever
it changes the text and every replaced match contains a digit. -/
theorem replaceCB_spec (core : RE) (cb : List Char → List Char)
    (hcb : ∀ x, cb x = x ∨ (digitCount (cb x) = 0 ∧ cb x ≠ [])) :
    ∀ (fuel : Nat) (prev : Option Char) (s : List Char),
      (headNotDigit s = true → headNotDigit (replaceCB fuel (mkPat core) cb prev s) = true) ∧
      runsAux (digOf prev) (replaceCB fuel (mkPat core) cb prev s) ≤ runsAux (digOf prev) s ∧
      ((∀ x, cb x ≠ x → 1 ≤ digitCount x) → replaceCB fuel (mkPat core) cb prev s ≠ s →
        runsAux (digOf prev) (replaceCB fuel (mkPat core) cb prev s) <
          runsAux (digOf prev) s) := by
  intro fuel
  induction fuel with
  | zero =>
    intro prev s
    exact ⟨fun h => h, le_refl _, fun _ hne => absurd rfl hne⟩
  | succ n ih =>
    intro prev s
    cases hfl : findLeft (mkPat core) prev s with
    | none =>
      have hout : replaceCB (n + 1) (mkPat core) cb prev s = s := by
        unfold replaceCB
        rw [hfl]
      refine ⟨?_, ?_, ?_⟩ <;> rw [hout]
      · exact fun h => h
      · exact fun _ hne => absurd rfl hne
    | some trip =>
      obtain ⟨pre, m, rest⟩ := trip
      obtain ⟨hs, hma⟩ := findLeft_spec _ prev s pre m rest hfl
      obtain ⟨m2, hmm, hbS, hbE⟩ := matchAt_mkPat _ _ _ _ _ hma
      have hm2 : m2 = m := List.append_cancel_right hmm.symm
      rw [hm2] at hbE
      have hb1 : digEnd (digOf prev) pre = digOf (lastOr pre prev) :=
        (digOf_lastOr pre prev).symm
      by_cases hme : m = []
      · subst hme
        have hcb0 := hcb []
        cases rest with
        | nil =>
          have hout : replaceCB (n + 1) (mkPat core) cb prev s = pre ++ cb [] := by
            unfold replaceCB
            rw [hfl]
            rfl
          have hs2 : s = pre := by simpa using hs
          cases hcb0 with
          | inl hid =>
            have hout2 : replaceCB (n + 1) (mkPat core) cb prev s = s := by
              rw [hout, hid, List.append_nil, hs2]
            refine ⟨?_, ?_, ?_⟩ <;> rw [hout2]
            · exact fun h => h
            · exact fun _ hne => absurd rfl hne
          | inr hdf =>
            obtain ⟨hdf0, hdfne⟩ := hdf
            refine ⟨?_, ?_, ?_⟩
            · intro hh
              rw [hout]
              cases pre with
              | nil =>
                simpa using headNotDigit_of_noDigits _ hdf0
              | cons p ps =>
                rw [hs2] at hh
                simpa [headNotDigit] using hh
            · rw [hout, hs2, runsAux_append,
                runsAux_zero_of_noDigits _ hdf0]
              omega
            · intro hstrict _
              exfalso
              have := hstrict [] (by simpa using hdfne)
              simp [digitCount] at this
        | cons c rest2 =>
          have hout : replaceCB (n + 1) (mkPat core) cb prev s =
              pre ++ cb [] ++ c :: replaceCB n (mkPat core) cb (some c) rest2 := by
            conv_lhs => unfold replaceCB
            rw [hfl]
            rfl
          have hs2 : s = pre ++ c :: rest2 := by simpa using hs
          obtain ⟨ihH, ihLe, ihSt⟩ := ih (some c) rest2
          have hdigc : digOf (some c) = c.isDigit := rfl
          rw [hdigc] at ihLe ihSt
          cases hcb0 with
          | inl hid =>
            rw [hid] at hout
            simp only [List.append_nil] at hout
            refine ⟨?_, ?_, ?_⟩
            · intro hh
              rw [hout]
              rw [hs2] at hh
              cases pre with
              | nil => simpa [headNotDigit] using hh
              | cons p ps => simpa [headNotDigit] using hh
            · rw [hout, hs2, runsAux_append, runsAux_append, runsAux_cons, runsAux_cons]
              have := ihLe
              omega
            · intro hstrict hne
              have hrec : replaceCB n (mkPat core) cb (some c) rest2 ≠ rest2 := by
                intro he
                rw [hout, he, ← hs2] at hne
                exact hne rfl
              have := ihSt hstrict hrec
              rw [hout, hs2, runsAux_append, runsAux_append, runsAux_cons, runsAux_cons]
              omega
          | inr hdf =>
            obtain ⟨hdf0, hdfne⟩ := hdf
            refine ⟨?_, ?_, ?_⟩
            · intro hh
              rw [hout]
              cases pre with
              | nil =>
                simp only [List.nil_append]
                exact headNotDigit_append _ _ hdfne (headNotDigit_of_noDigits _ hdf0)
              | cons p ps =>
                rw [hs2] at hh
                simpa [headNotDigit] using hh
            · rw [hout, hs2, runs_decomp3, runsAux_append, runsAux_cons, runsAux_cons,
                runsAux_zero_of_noDigits _ hdf0,
                digEnd_false_of_noDigits _ hdf0 hdfne]
              have hinc : (if c.isDigit && !false then 1 else 0) ≤
                  (if c.isDigit && !(digEnd (digOf prev) pre) then 1 else 0) := by
                by_cases hcd : c.isDigit = true
                · have hb1f : digEnd (digOf prev) pre = false := by
                    rw [hb1]
                    exact digOf_false_of_boundary _ c (by simpa using hbS) hcd
                  simp [hcd, hb1f]
                · simp only [Bool.not_eq_true] at hcd
                  simp [hcd]
              have := ihLe
              omega
            · intro hstrict _
              exfalso
              have := hstrict [] (by simpa using hdfne)
              simp [digitCount] at this
      · obtain ⟨mh, mt, hmc⟩ : ∃ h t, m = h :: t := by
          cases m with
          | nil => exact absurd rfl hme
          | cons a b => exact ⟨a, b, rfl⟩
        have hout : replaceCB (n + 1) (mkPat core) cb prev s =
            pre ++ cb m ++ replaceCB n (mkPat core) cb (lastOr m prev) rest := by
          conv_lhs => unfold replaceCB
          rw [hfl, hmc]
          rfl
        have hlast : lastOr m prev = lastOr m (lastOr pre prev) := lastOr_irrel m _ _ hme
        have hb2 : digOf (lastOr m prev) = digEnd (digEnd (digOf prev) pre) m := by
          rw [hlast, digOf_lastOr, digOf_lastOr]
        obtain ⟨ihH, ihLe, ihSt⟩ := ih (lastOr m prev) rest
        rw [hb2] at ihLe ihSt
        have hrestHead : digEnd (digEnd (digOf prev) pre) m = true →
            headNotDigit rest = true := by
          intro hbt
          have hdob : digOf (lastOr m (lastOr pre prev)) = true := by
            rw [digOf_lastOr, digOf_lastOr]
            exact hbt
          cases hlo : lastOr m (lastOr pre prev) with
          | none =>
            rw [hlo] at hdob
            simp [digOf] at hdob
          | some ch =>
            rw [hlo] at hdob
            rw [hlo] at hbE
            exact headNotDigit_of_boundary ch rest (by simpa [digOf] using hdob) hbE
        have hstartOr : digEnd (digOf prev) pre = false ∨ headNotDigit m = true := by
          by_cases hmd : mh.isDigit = true
          · left
            rw [hb1]
            refine digOf_false_of_boundary _ mh ?_ hmd
            rw [hmc] at hbS
            simpa using hbS
          · right
            rw [hmc]
            simpa [headNotDigit] using hmd
        by_cases hcm : cb m = m
        · rw [hcm] at hout
          refine ⟨?_, ?_, ?_⟩
          · intro hh
            rw [hout]
            cases pre with
            | nil =>
              rw [hs] at hh
              simp only [List.nil_append] at hh ⊢
              rw [hmc] at hh ⊢
              simpa [headNotDigit] using hh
            | cons p ps =>
              rw [hs] at hh
              simpa [headNotDigit] using hh
          · rw [hout, hs, runs_decomp3, runs_decomp3]
            omega
          · intro hstrict hne
            have hrec : replaceCB n (mkPat core) cb (lastOr m prev) rest ≠ rest := by
              intro he
              rw [hout, he, ← hs] at hne
              exact hne rfl
            have := ihSt hstrict hrec
            rw [hout, hs, runs_decomp3, runs_decomp3]
            omega
        · have hdf : digitCount (cb m) = 0 ∧ cb m ≠ [] := by
            cases hcb m with
            | inl h => exact absurd h hcm
            | inr h => exact h
          obtain ⟨hdf0, hdfne⟩ := hdf
          have hrecLe : runsAux false (replaceCB n (mkPat core) cb (lastOr m prev) rest) ≤
              runsAux (digEnd (digEnd (digOf prev) pre) m) rest := by
            cases hb2v : digEnd (digEnd (digOf prev) pre) m with
            | false =>
              rw [hb2v] at ihLe
              exact ihLe
            | true =>
              have hhr : headNotDigit rest = true := hrestHead hb2v
              have hhrec : headNotDigit
                  (replaceCB n (mkPat core) cb (lastOr m prev) rest) = true := ihH hhr
              rw [hb2v] at ihLe
              rw [runsAux_head_indep _ hhrec false true]
              exact ihLe
          refine ⟨?_, ?_, ?_⟩
          · intro hh
            rw [hout]
            cases pre with
            | nil =>
              simp only [List.nil_append]
              exact headNotDigit_append _ _ hdfne (headNotDigit_of_noDigits _ hdf0)
            | cons p ps =>
              rw [hs] at hh
              simpa [headNotDigit] using hh
          · rw [hout, hs, runs_decomp3, runs_decomp3,
              runsAux_zero_of_noDigits _ hdf0, digEnd_false_of_noDigits _ hdf0 hdfne]
            omega
          · intro hstrict _
            have hm1 : 1 ≤ digitCount m := hstrict m hcm
            have hrpos : 1 ≤ runsAux (digEnd (digOf prev) pre) m :=
              runsAux_pos m _ hm1 hstartOr
            rw [hout, hs, runs_decomp3, runs_decomp3,
              runsAux_zero_of_noDigits _ hdf0, digEnd_false_of_noDigits _ hdf0 hdfne]
            omega

theorem phoneCB_keep_or_placeholder (full x : List Char) :
    phoneCB full x = x ∨ (digitCount (phoneCB full x) = 0 ∧ phoneCB full x ≠ []) := by
  unfold phoneCB
  split
  · exact Or.inl rfl
  · split
    · exact Or.inr ⟨by decide, by decide⟩
    · exact Or.inl rfl

theorem phoneCB_replaces_digits (full x : List Char) (hx : phoneCB full x ≠ x) :
    1 ≤ digitCount x := by
  unfold phoneCB at hx
  split at hx
  · exact absurd rfl hx
  · split at hx
    · rename_i hlik
      have h7 : 7 ≤ digitCount x := by
        simp only [isLikelyPhoneNumber, Bool.and_eq_true, decide_eq_true_eq] at hlik
        exact hlik.1
      omega
    · exact absurd rfl hx

/-- Folding guarded replacements over boundary-wrapped patterns never
increases the digit-run count, and strictly decreases it on any change
when every replaced match contains a digit. -/
theorem foldl_replace_runs (cbF : List Char → List Char → List Char)
    (hcb : ∀ acc x, cbF acc x = x ∨ (digitCount (cbF acc x) = 0 ∧ cbF acc x ≠ [])) :
    ∀ ps : List RE, (∀ p ∈ ps, ∃ core, p = mkPat core) →
    ∀ s : List Char,
      digitRuns (ps.foldl (fun acc p => replaceCB (acc.length + 1) p (cbF acc) none acc) s) ≤
        digitRuns s ∧
      ((∀ acc x, cbF acc x ≠ x → 1 ≤ digitCount x) →
        ps.foldl (fun acc p => replaceCB (acc.length + 1) p (cbF acc) none acc) s ≠ s →
        digitRuns (ps.foldl (fun acc p => replaceCB (acc.length + 1) p (cbF acc) none acc) s) <
          digitRuns s) := by
  intro ps
  induction ps with
  | nil =>
    intro _ s
    exact ⟨le_refl _, fun _ hne => absurd rfl hne⟩
  | cons p ps ih =>
    intro hps s
    obtain ⟨core, hcore⟩ := hps p (List.mem_cons_self p ps)
    have hps2 : ∀ q ∈ ps, ∃ c, q = mkPat c := fun q hq => hps q (List.mem_cons_of_mem p hq)
    subst hcore
    obtain ⟨_, hle, hlt⟩ := replaceCB_spec core (cbF s) (hcb s) (s.length + 1) none s
    have hdig : digOf none = false := rfl
    rw [hdig] at hle hlt
    obtain ⟨ihLe, ihLt⟩ :=
      ih hps2 (replaceCB (s.length + 1) (mkPat core) (cbF s) none s)
    simp only [List.foldl_cons]
    constructor
    · exact le_trans ihLe hle
    · intro hstrict hne
      by_cases h1 : replaceCB (s.length + 1) (mkPat core) (cbF s) none s = s
      · rw [h1] at ihLt ⊢
        rw [h1] at hne
        exact lt_of_lt_of_le (ihLt hstrict hne) (le_refl _)
      · exact lt_of_le_of_lt ihLe (hlt (hstrict s) h1)

theorem phonePatterns_shape : ∀ p ∈ phonePatterns, ∃ core, p = mkPat core := by
  intro p hp
  simp only [phonePatterns, List.mem_cons, List.not_mem_nil, or_false] at hp
  rcases hp with h | h | h | h | h | h | h | h | h | h | h | h | h | h | h <;> exact ⟨_, h⟩

theorem creditCardPatterns_shape : ∀ p ∈ creditCardPatterns, ∃ core, p = mkPat core := by
  intro p hp
  simp only [creditCardPatterns, List.mem_cons, List.not_mem_nil, or_false] at hp
  rcases hp with h | h | h | h | h <;> exact ⟨_, h⟩

/-- One full phone pass never increases the digit-run count, and any
changing pass strictly decreases it. -/
theorem phonePassOnce_runs (s : List Char) :
    digitRuns (phonePassOnce s) ≤ digitRuns s ∧
    (phonePassOnce s ≠ s → digitRuns (phonePassOnce s) < digitRuns s) := by
  have h := foldl_replace_runs phoneCB phoneCB_keep_or_placeholder phonePatterns
    phonePatterns_shape s
  unfold phonePassOnce
  exact ⟨h.1, fun hne => h.2 phoneCB_replaces_digits hne⟩

theorem emailStep_runs (t : List Char) : digitRuns (emailStep t) ≤ digitRuns t := by
  unfold emailStep
  cases findLeft emailPattern none t with
  | none => exact le_refl _
  | some x =>
    obtain ⟨_, hle, _⟩ := replaceCB_spec
      (reCat [rplus (RE.cls (fun c => c.isAlphanum || c = '.' || c = '_' || c = '%' ||
        c = '+' || c = '-')), reLit "@".data,
        rplus (RE.cls (fun c => c.isAlphanum || c = '.' || c = '-')), reLit ".".data,
        RE.cls (fun c => c.isUpper || c = '|' || c.isLower),
        RE.cls (fun c => c.isUpper || c = '|' || c.isLower),
        RE.star (RE.cls (fun c => c.isUpper || c = '|' || c.isLower)) false])
      (fun _ => emailPH)
      (fun _ => Or.inr ⟨(by decide : digitCount emailPH = 0), (by decide : emailPH ≠ [])⟩)
      (t.length + 1) none t
    exact hle

theorem cardSteps_runs (t : List Char) : digitRuns (cardSteps t) ≤ digitRuns t := by
  have h := foldl_replace_runs (fun _ _ => cardPH)
    (fun _ _ => Or.inr ⟨(by decide : digitCount cardPH = 0), (by decide : cardPH ≠ [])⟩)
    creditCardPatterns
    creditCardPatterns_shape t
  unfold cardSteps
  exact h.1

/-- The re-scan loop reaches a fixed point of the phone pass whenever
its fuel exceeds the digit-run count of its input text. -/
theorem phoneLoopGo_fix (fuel : Nat) :
    ∀ (prevTxt m : List Char), digitRuns m + 2 ≤ fuel → prevTxt ≠ m →
      phonePassOnce (phoneLoopGo fuel prevTxt m) = phoneLoopGo fuel prevTxt m := by
  induction fuel with
  | zero =>
    intro prevTxt m hf _
    omega
  | succ f ih =>
    intro prevTxt m hf hne
    unfold phoneLoopGo
    rw [if_neg hne]
    by_cases hstep : phonePassOnce m = m
    · rw [hstep]
      cases f with
      | zero => omega
      | succ f2 =>
        unfold phoneLoopGo
        rw [if_pos rfl]
        exact hstep
    · have hlt := (phonePassOnce_runs m).2 hstep
      exact ih m (phonePassOnce m) (by omega) (fun he => hstep he.symm)

/-- C8: the phone re-scan loop terminates on every input.  A changing
pass strictly shrinks the number of digit runs (every replacement
substitutes a digit-free placeholder for a digit-bearing match lying
at word boundaries), so the loop reaches a fixed point of the phone
pass within digit-run-many changing iterations; and the email and
credit-card passes that run first never increase the run count, so the
digit runs of the original text also bound the loop of the full
masker. -/
theorem phone_rescan_terminates :
    (∀ s : List Char, phonePassOnce s ≠ s → digitRuns (phonePassOnce s) < digitRuns s) ∧
    (∀ m : List Char, phonePassOnce (phoneLoopGo (digitRuns m + 2) [] m) =
      phoneLoopGo (digitRuns m + 2) [] m) ∧
    (∀ text : List Char,
      digitRuns (phonePassOnce (cardSteps (emailStep text))) ≤ digitRuns text) := by
  refine ⟨fun s => (phonePassOnce_runs s).2, ?_, ?_⟩
  · intro m
    by_cases hm : m = []
    · subst hm
      show phonePassOnce (phoneLoopGo 2 [] []) = phoneLoopGo 2 [] []
      decide
    · exact phoneLoopGo_fix _ [] m (le_refl _) (fun h => hm h.symm)
  · intro text
    exact le_trans (phonePassOnce_runs _).1
      (le_trans (cardSteps_runs _) (emailStep_runs _))

/-- C8 witness: a changing pass at a concrete input strictly shrinks
the digit-run count. -/
theorem phone_rescan_terminates_witness :
    digitRuns (phonePassOnce "Call 833-376-1995".data) <
      digitRuns "Call 833-376-1995".data :=
  phone_rescan_terminates.1 "Call 833-376-1995".data (by decide)

/-- The digit-run count is bounded by the digit count, so the loop
fuel digitCount + 2 used in maskSensitiveInfo always reaches the fixed
point of the unbounded source loop. -/
theorem digitRuns_le_digitCount (s : List Char) : ∀ pd : Bool,
    runsAux pd s ≤ digitCount s := by
  induction s with
  | nil => intro pd; simp [runsAux, digitCount]
  | cons c cs ih =>
    intro pd
    rw [runsAux_cons, digitCount_cons]
    cases hc : c.isDigit with
    | false =>
      have h2 := ih false
      simp only [Bool.false_and, Bool.false_eq_true, if_false]
      omega
    | true =>
      have h2 := ih true
      cases pd <;> simp <;> omega
